import Mathlib

/-!
Verification of the YASDL schema compiler and instance engine
(python-venus-lib).

This file gives a shallow embedding, in Lean 4, of the parts of the
library that its specification makes checkable claims about:

* the implementation-tree machinery of the semantic compiler
  (`set_final_implementation_of`, `_phase2_step5` in
  `venus/db/yasdl/compiler.py`),
* the effective-member cache (`YASDLItem._cache_members` in
  `venus/db/yasdl/ast.py`) and the unused-deletion warning
  (`_phase3_step7`),
* the realization fixed point (`_phase5_step1_and_step2_and_step3`),
* the diff/upgrade engine (`diff_schemas`, `diff_tables`, `diff_fields`,
  `upgrade`, `drop` in `venus/db/yasdl/instance.py`),
* the physical-name cache and accessors (`_cache_pnames`,
  `get_schema_pname`, `get_table_pname`, `get_field_pname`),
* physical-name mangling (`hashname`, `makename` in
  `venus/db/dbo/connection.py`),
* the GNU diagnostic format (`CompilerMessage.gnu_format`).

Python objects are represented by natural-number identifiers living in a
finite arena; object attributes become functions of the identifier.
Python `dict`s become association lists with insert-overwrite semantics.
`while` loops that grow a finite set until a pass adds nothing are
embedded as a fuel-bounded iteration `fixLoop` that returns `none` when
the fuel runs out; all theorems about loop results are conditioned on a
`some` result, which is exactly the situation in which the Python loop
has terminated (additions to a finite set always terminate, so in the
source this is the only observable outcome).

Python exceptions are modelled with `Except`/`Option` results.
-/

namespace Venus

/-! ## Generic bounded fixed-point iteration

Embeds the source pattern

    while True:
        before = len(s); mutate s; after = len(s)
        if before == after: break

over a growing finite set: one application of `f` is one pass of the
loop body, and the loop exits with the state of the last pass once a
pass changes nothing.  (`f s = s` is compared instead of the sizes; the
sets only ever grow in every use below, where the two tests agree.)
-/

def fixLoop {α : Type} [DecidableEq α] (f : α → α) : Nat → α → Option α
  | 0, _ => none
  | n + 1, s => if f s = s then some (f s) else fixLoop f n (f s)

/-! ## Final implementors

`set_final_implementation_of` (compiler.py:521-536) follows the
`direct_implementor` chain:

    if obj.direct_implementor:
        obj.final_implementor = self.set_final_implementation_of(obj.direct_implementor)
    else:
        obj.final_implementor = obj  # Implements itself

The Python recursion terminates because phase 1 step 9 rejected circular
`implements` chains.  The embedding makes the recursion structural on a
fuel argument; theorems carry a rank function witnessing the acyclicity
that phase 1 established, which makes the fuel irrelevant.
-/

def fiAux (di : Nat → Option Nat) : Nat → Nat → Nat
  | 0, i => i
  | n + 1, i =>
    match di i with
    | none => i
    | some j => fiAux di n j

/-- Acyclicity of the `direct_implementor` relation, as guaranteed by
compile phase 1 step 9: some rank strictly decreases along the chain. -/
def DIRanked (di : Nat → Option Nat) (r : Nat → Nat) : Prop :=
  ∀ i j, di i = some j → r j < r i

/-! ## AST arena

The cyclic Python object graph of `venus/db/yasdl/ast.py` is embedded as
an arena: every `YASDLItem` is a natural-number identifier `< n`, and
the object attributes become functions of the identifier.  `childs`
embeds `self.items` restricted to `YASDLItem` children (literal values
inside properties are not `YASDLItem`s and are skipped by every loop
modelled here).  `ancs` embeds the `ancestors` attribute computed by
phase 3 step 4; the identifiers are chosen in a topological order of the
(acyclic) inheritance graph, which theorems state as the hypothesis that
every ancestor identifier is smaller than its descendant.  `di` embeds
`direct_implementor` from phase 2 step 1. -/

inductive Kind where
  | schema | fieldset | field | prop | deletion | index | constr
deriving DecidableEq, Repr

structure Arena where
  n : Nat
  kind : Nat → Kind
  name : Nat → String
  childs : Nat → List Nat
  ancs : Nat → List Nat
  di : Nat → Option Nat

/-- Embeds `iterate([ast.YASDLField, ast.YASDLFieldSet])` membership:
the identifier denotes a field or fieldset definition. -/
def isImpl (A : Arena) (i : Nat) : Bool :=
  A.kind i = Kind.field || A.kind i = Kind.fieldset

/-- Final implementor of a definition (`set_final_implementation_of`).
Fuel `A.n` covers every implementor chain of an acyclic compilation. -/
def finalImp (A : Arena) (i : Nat) : Nat :=
  fiAux A.di A.n i

/-- Embeds `item = getattr(item, 'final_implementor', item)`
(ast.py:239): the compiler only sets `final_implementor` on fields and
fieldsets (phase 2 step 3), so other items are left unchanged. -/
def fiOf (A : Arena) (c : Nat) : Nat :=
  if isImpl A c then finalImp A c else c

/-! ### Effective member cache (`YASDLItem._cache_members`, ast.py:179-252) -/

/-- Names deleted in this container: `self.deletions` collected from the
`YASDLDeletion` children (ast.py:208-211). -/
def deletionsOf (A : Arena) (i : Nat) : Finset String :=
  (((A.childs i).filter (fun c => A.kind c = Kind.deletion)).map A.name).toFinset

/-- One step of the inherited-member merge (ast.py:221-236): an
inherited member named `implements`/`ancestors` is skipped, a deleted
name marks the deletion used, a known name replaces the previous member
in place, and a new name is appended.  The state is the member list
paired with the set of used deletions. -/
def insertInherited (A : Arena) (dels : Finset String) (st : List Nat × Finset String)
    (im : Nat) : List Nat × Finset String :=
  if A.name im = "implements" ∨ A.name im = "ancestors" then st
  else if A.name im ∈ dels then (st.1, insert (A.name im) st.2)
  else if st.1.any (fun e => A.name e = A.name im) then
    (st.1.map (fun e => if A.name e = A.name im then im else e), st.2)
  else (st.1 ++ [im], st.2)

/-- One step of the local-member merge (ast.py:238-249): the child is
first replaced by its final implementor (fields and fieldsets only),
deletions are skipped, and the result overrides an already-present name
in place or is appended. -/
def insertLocal (A : Arena) (mem : List Nat) (c : Nat) : List Nat :=
  let c1 := fiOf A c
  if A.kind c1 = Kind.deletion then mem
  else if mem.any (fun e => A.name e = A.name c1) then
    mem.map (fun e => if A.name e = A.name c1 then c1 else e)
  else mem ++ [c1]

/-- The member cache.  The fuel argument stands for the recursion on
ancestors, which terminates in the source because the inheritance graph
is acyclic (phase 3 step 2); with identifiers in topological order,
fuel `i + 1` computes the same value as every larger fuel. -/
def membersAux (A : Arena) : Nat → Nat → List Nat × Finset String
  | 0, _ => ([], ∅)
  | fuel + 1, i =>
    let dels := deletionsOf A i
    let inh := (A.ancs i).foldl
      (fun st a => (membersAux A fuel a).1.foldl (insertInherited A dels) st) ([], ∅)
    ((A.childs i).foldl (insertLocal A) inh.1, inh.2)

/-- The `members` attribute after `_cache_members`. -/
def membersOf (A : Arena) (i : Nat) : List Nat :=
  (membersAux A (i + 1) i).1

/-- The used deletions collected while inheriting (`used_deletions`). -/
def usedDels (A : Arena) (i : Nat) : Finset String :=
  (membersAux A (i + 1) i).2

/-- The `unused_deletions` attribute (ast.py:251). -/
def unusedDeletions (A : Arena) (i : Nat) : Finset String :=
  deletionsOf A i \ usedDels A i

/-- Effective member lookup by name: `self._mbn[name]`, realised on the
member list (names are unique within the cached list). -/
def memberByName (A : Arena) (i : Nat) (x : String) : Option Nat :=
  (membersOf A i).find? (fun e => A.name e = x)

/-- Compiler phase 3 step 7 (compiler.py:772-779): items of a container
whose name is an unused deletion receive the "Useless use of name
deletion" warning.  The result lists the warned items. -/
def deletionWarnings (A : Arena) (i : Nat) : List Nat :=
  (A.childs i).filter (fun c => A.name c ∈ unusedDeletions A i)

/-! ### Implementation trees (`_phase2_step5`, compiler.py:560-606) -/

/-- The membership test of the specification-growing loop
(compiler.py:592-593):

    if (spec.direct_implementor is item) or
       (spec.direct_implementor in item.specifications):

`None in item.specifications` is always false, matching the `none`
branch. -/
def specCond (di : Nat → Option Nat) (i : Nat) (s : Finset Nat) (sp : Nat) : Bool :=
  match di sp with
  | none => false
  | some j => j = i || j ∈ s

/-- One pass of the `while True` loop growing `item.specifications`. -/
def specStep (items : List Nat) (di : Nat → Option Nat) (i : Nat) (s : Finset Nat) :
    Finset Nat :=
  s ∪ (items.filter (specCond di i s)).toFinset

/-- The `specifications` set a definition ends phase 2 with, given the
members `items` of its implementation tree.  (The loop also grows
`implementations` sets; no claim below depends on those, and omitting
them does not change the fixed point of the `specifications` part.) -/
def specsFor (items : List Nat) (di : Nat → Option Nat) (i : Nat) : Option (Finset Nat) :=
  fixLoop (specStep items di i) (items.length + 1) ∅

/-- The partition of field/fieldset definitions by final implementor
(`trees` in `_phase2_step5`). -/
def partitionOf (A : Arena) (F : Nat) : List Nat :=
  (List.range A.n).filter (fun j => isImpl A j && finalImp A j = F)

/-- The `specifications` attribute of definition `F` after phase 2. -/
def specifications (A : Arena) (F : Nat) : Option (Finset Nat) :=
  specsFor (partitionOf A F) A.di F

/-- Topological indexing of the inheritance graph: every ancestor
identifier is smaller than its descendant's.  Phase 3 step 2 guarantees
acyclicity of the `ancestors` relation, so such a numbering of the AST
exists; theorems about the member cache assume the arena uses one. -/
def AncsTopo (A : Arena) : Prop := ∀ i, ∀ a ∈ A.ancs i, a < i

/-- A one-definition compilation: a single fieldset that nothing
implements (so it is its own final implementor). -/
def c2cex : Arena where
  n := 1
  kind := fun _ => Kind.fieldset
  name := fun _ => "t"
  childs := fun _ => []
  ancs := fun _ => []
  di := fun _ => none

/-- The literal statement of claim C2: every field/fieldset declaration
is a member of its final implementor's `specifications` set. -/
def ClaimC2 (A : Arena) : Prop :=
  ∀ d, d < A.n → isImpl A d = true →
    ∀ S, specifications A (finalImp A d) = some S → d ∈ S

/-- A two-definition compilation: fieldset 0 is implemented by
fieldset 1 (`di 0 = some 1`), fieldset 1 implements nothing. -/
def c2wit : Arena where
  n := 2
  kind := fun _ => Kind.fieldset
  name := fun i => if i = 0 then "spec" else "impl"
  childs := fun _ => []
  ancs := fun _ => []
  di := fun i => if i = 0 then some 1 else none

/-- Rank function witnessing acyclicity of `c2wit.di`. -/
def c2witRank : Nat → Nat := fun i => if i = 0 then 1 else 0

/-- The state after the inherited-member phase of `_cache_members`
(explicit view of the recursive body of `membersAux`). -/
def inhState (A : Arena) (fuel i : Nat) : List Nat × Finset String :=
  (A.ancs i).foldl
    (fun st a => (membersAux A fuel a).1.foldl (insertInherited A (deletionsOf A i)) st)
    ([], ∅)

/-- A three-definition compilation for exercising C9: field 0 is
implemented by field 1; fieldset 2 declares field 0 as its only
child. -/
def c9wit : Arena where
  n := 3
  kind := fun i => if i = 2 then Kind.fieldset else Kind.field
  name := fun i => if i = 2 then "t" else "x"
  childs := fun i => if i = 2 then [0] else []
  ancs := fun _ => []
  di := fun i => if i = 0 then some 1 else none

/-- Rank function witnessing acyclicity of `c9wit.di`. -/
def c9witRank : Nat → Nat := fun i => if i = 0 then 1 else 0

/-- The rename-by-deletion scenario of C6: fieldset 2 ("A") declares
field 0 ("x"); fieldset 3 ("B") inherits from 2 and declares the
deletion 1 of name "x" together with a local field 4 named "x". -/
def c6wit : Arena where
  n := 5
  kind := fun i =>
    if i = 1 then Kind.deletion
    else if i = 2 ∨ i = 3 then Kind.fieldset
    else Kind.field
  name := fun i => if i = 2 then "A" else if i = 3 then "B" else "x"
  childs := fun i => if i = 2 then [0] else if i = 3 then [1, 4] else []
  ancs := fun i => if i = 3 then [2] else []
  di := fun _ => none

/-! ## Phase 5: realization fixed point
(`_phase5_step1_and_step2_and_step3`, compiler.py:960-1073)

The model takes the attributes that earlier phases computed as given
data: `fi` is the `final_implementor` attribute (phase 2), `specs` the
`specifications` sets (phase 2 step 5), `containedFields` /
`containedFieldsets` the transitive member contents a fieldset's
`itercontained([YASDLField])` / `itercontained([YASDLFieldSet])`
traversal yields (members were cached in phase 3 step 6 and do not
change during phase 5), and `refsOf` the field's own static
`references` property (`bind_static('references', None, False)` looks
only at the field's own items), holding the list of bound target
identifiers, or `none` when the field has no such property. -/

structure P5Model where
  nschemas : Nat
  uses : Nat → List (Nat × Bool)
  mainSrcs : List Nat
  fsItems : Nat → List (Nat × Bool)
  ndefs : Nat
  containedFields : Nat → List Nat
  containedFieldsets : Nat → List Nat
  refsOf : Nat → Option (List Nat)
  outermost : Nat → Bool
  fi : Nat → Nat
  specs : Nat → List Nat

/-- The mutable state of the realization loop: `realized_fieldsets`,
`toplevel_fieldsets` and `realized_fields`. -/
structure P5State where
  rfs : Finset Nat
  tfs : Finset Nat
  rf : Finset Nat
deriving DecidableEq

/-- One pass of the realized-schema closure (compiler.py:972-980): every
`required` use of a realized schema realizes the used schema. -/
def schemaStep (m : P5Model) (s : Finset Nat) : Finset Nat :=
  s ∪ s.biUnion (fun sc => (((m.uses sc).filter (fun u => u.2)).map Prod.fst).toFinset)

/-- The realized-schema set: the top (main) schemas closed under
required uses. -/
def realizedSchemasOf (m : P5Model) : Option (Finset Nat) :=
  fixLoop (schemaStep m) (m.nschemas + 1) m.mainSrcs.toFinset

/-- The seed of realized/toplevel fieldsets (compiler.py:1002-1008): for
every realized schema, each outermost fieldset item carrying the
`required` modifier contributes its final implementor, provided that
implementor is outermost.  (Items of a schema are outermost by
construction, so the `item.is_outermost()` test always passes here.) -/
def seedSet (m : P5Model) (rs : Finset Nat) : Finset Nat :=
  rs.biUnion (fun sc =>
    (((m.fsItems sc).filter (fun it => it.2 && m.outermost (m.fi it.1))).map
      (fun it => m.fi it.1)).toFinset)

/-- Error 05011 (compiler.py:1009-1017): a required outermost fieldset
whose final implementor is not outermost. -/
def seedErr (m : P5Model) (rs : Finset Nat) : Bool :=
  decide (∃ sc ∈ rs, (m.fsItems sc).any (fun it => it.2 && !(m.outermost (m.fi it.1))))

/-- Reference requirements generated by the realized fields contained in
fieldset `fs` (compiler.py:1041-1049): the final implementor of the
first argument of each field's `references` property.  A field whose
`references` property has no argument contributes nothing here; in the
source that case raises `IndexError` (`prop_ref.items[0]`), which
`hasBadRef` accounts for. -/
def refTargets (m : P5Model) (fs : Nat) : Finset Nat :=
  ((m.containedFields fs).filterMap (fun f =>
    match m.refsOf f with
    | some (t :: _) => some (m.fi t)
    | _ => none)).toFinset

/-- Detects the `IndexError` of compiler.py:1046: some field contained
in a realized fieldset carries a `references` property with zero
arguments (a universal reference).  `YASDLProperty` defines neither
`__bool__` nor `__len__`, so `if prop_ref:` is true for the empty
property and `prop_ref.items[0]` raises. -/
def hasBadRef (m : P5Model) (rfs : Finset Nat) : Bool :=
  decide (∃ fs ∈ rfs, (m.containedFields fs).any (fun f => m.refsOf f = some []))

/-- One pass of the realization loop (compiler.py:1022-1054): first all
members of realized fieldsets become realized (fields into
`realized_fields`, fieldsets into `realized_fieldsets`), then the
reference targets of fields contained in the updated set are added to
both `realized_fieldsets` and `toplevel_fieldsets`. -/
def p5pass (m : P5Model) (s : P5State) : P5State :=
  let rf1 := s.rf ∪ s.rfs.biUnion (fun fs => (m.containedFields fs).toFinset)
  let rfs1 := s.rfs ∪ s.rfs.biUnion (fun fs => (m.containedFieldsets fs).toFinset)
  let tgts := rfs1.biUnion (refTargets m)
  ⟨rfs1 ∪ tgts, s.tfs ∪ tgts, rf1⟩

/-- One pass of the realization-propagation loop (compiler.py:1063-1073):
all specifications of realized definitions become realized. -/
def specClosureStep (m : P5Model) (ra : Finset Nat) : Finset Nat :=
  ra ∪ ra.biUnion (fun i => (m.specs i).toFinset)

/-- The outcome of phase 5: the realized schemas, the
`realized_fieldsets` / `toplevel_fieldsets` / `realized_fields` sets the
worklist computed, the final realized set after propagation to
specifications, and whether error 05011 was reported. -/
structure P5Out where
  rSchemas : Finset Nat
  wlFieldsets : Finset Nat
  toplevel : Finset Nat
  wlFields : Finset Nat
  realized : Finset Nat
  hasErr : Bool
deriving DecidableEq

/-- Phase 5 as a whole.  `none` models the `IndexError` raised on a
universal reference of a realized field (or exhausted fuel, which the
source's always-terminating loops never exhibit). -/
def phase5 (m : P5Model) : Option P5Out :=
  (realizedSchemasOf m).bind (fun rs =>
    (fixLoop (p5pass m) (m.ndefs + 2) ⟨seedSet m rs, seedSet m rs, ∅⟩).bind (fun sF =>
      if hasBadRef m sF.rfs then none
      else
        (fixLoop (specClosureStep m) (m.ndefs + 2) (sF.rfs ∪ sF.rf)).map (fun ra =>
          ⟨rs, sF.rfs, sF.tfs, sF.rf, ra, seedErr m rs⟩)))

/-- The counterexample compilation for C1: one main schema (index 0)
declaring the abstract fieldset 0 ("A", containing field 2) and the
required fieldset 1 ("B", containing field 3).  Fieldset 1 implements
fieldset 0, so `fi 0 = 1` and `specs 1 = [0]`. -/
def c1cex : P5Model where
  nschemas := 1
  uses := fun _ => []
  mainSrcs := [0]
  fsItems := fun _ => [(0, false), (1, true)]
  ndefs := 4
  containedFields := fun i => if i = 0 then [2] else if i = 1 then [3] else []
  containedFieldsets := fun _ => []
  refsOf := fun _ => none
  outermost := fun i => i = 0 || i = 1
  fi := fun i => if i = 0 then 1 else i
  specs := fun i => if i = 1 then [0] else []

/-- The phase-5 outcome on `c1cex`. -/
def c1out : P5Out := (phase5 c1cex).getD ⟨∅, ∅, ∅, ∅, ∅, true⟩

/-! ## The upgrade diff engine (instance.py:584-717)

`diff_schemas`, `diff_tables` and `diff_fields` consult an instance
only through guids, physical field names, vendor type-spec strings and
`notnull` flags; the model records exactly those.  Python dicts become
association lists with insert-overwrite (`dinsert`) and key sets
(`dkeys`). -/

/-- A realized field path of a table as the field diff sees it: its
physical name (`get_field_pname`), the vendor type specification
(`conn.get_typespec(field)`) and `field.get_notnull()`. -/
structure FieldEntry where
  pname : String
  typespec : String
  notnull : Bool
deriving DecidableEq

/-- A realized toplevel fieldset as the diff engine sees it:
`get_guid()`, `owner_schema.getpath()` and the realized field paths in
`itercontained([ast.YASDLField])` order. -/
structure TableM where
  guid : String
  schemaPath : String
  fields : List FieldEntry
deriving DecidableEq

/-- An instance reduced to what the three diff axes consult:
`schemaGuids` lists `get_guid()` of
`schemas_with_toplevel_realized_fieldsets()` and `tables` the realized
toplevel fieldsets in `toplevel_realized_fieldsets()` order. -/
structure InstanceM where
  schemaGuids : List String
  tables : List TableM
deriving DecidableEq

/-- Python dict insertion: overwriting keeps the original position of
the key, a new key is appended. -/
def dinsert {κ α : Type} [DecidableEq κ] (k : κ) (v : α) : List (κ × α) → List (κ × α)
  | [] => [(k, v)]
  | (k2, v2) :: rest => if k2 = k then (k, v) :: rest else (k2, v2) :: dinsert k v rest

/-- Python dict lookup. -/
def dget {κ α : Type} [DecidableEq κ] (k : κ) : List (κ × α) → Option α
  | [] => none
  | (k2, v2) :: rest => if k2 = k then some v2 else dget k rest

/-- The key set of a dict. -/
def dkeys {κ α : Type} [DecidableEq κ] (d : List (κ × α)) : Finset κ :=
  (d.map Prod.fst).toFinset

/-- Computable iteration order over a guid set (Python iterates its
`set` objects in an unspecified order; the results proved below are
order-independent). -/
def flist (s : Finset String) : List String := s.sort (fun a b => a ≤ b)

/-- Result of `diff_schemas` (only the guid sets are claimed about). -/
structure SchemaDiffM where
  toDrop : Finset String
  toCreate : Finset String
deriving DecidableEq

/-- `YASDLInstance.diff_schemas` (instance.py:584-593):
`to_create = new − old`, `to_drop = old − new` over the guid key sets
of the two schema dicts. -/
def diff_schemas (oldI newI : InstanceM) : SchemaDiffM :=
  let newS := newI.schemaGuids.foldl (fun d g => dinsert g () d) []
  let oldS := oldI.schemaGuids.foldl (fun d g => dinsert g () d) []
  ⟨dkeys oldS \ dkeys newS, dkeys newS \ dkeys oldS⟩

/-- Result of `diff_tables`. -/
structure TableDiffM where
  old_tables : List (String × TableM)
  new_tables : List (String × TableM)
  common : Finset String
  toDrop : Finset String
  toCreate : Finset String
deriving DecidableEq

/-- `YASDLInstance.diff_tables` (instance.py:595-611). -/
def diff_tables (oldI newI : InstanceM) : TableDiffM :=
  let newT := newI.tables.foldl (fun d t => dinsert t.guid t d) []
  let oldT := oldI.tables.foldl (fun d t => dinsert t.guid t d) []
  ⟨oldT, newT, dkeys oldT ∩ dkeys newT, dkeys oldT \ dkeys newT, dkeys newT \ dkeys oldT⟩

/-- Result of `diff_fields` for one common table pair. -/
structure FieldDiffM where
  toDrop : List FieldEntry
  toCreate : List FieldEntry
  toRename : List (FieldEntry × FieldEntry)
  toRetype : List (FieldEntry × FieldEntry)
  toDropNotnull : List FieldEntry
  toCreateNotnull : List FieldEntry
  hasChange : Bool
deriving DecidableEq

/-- Stand-in for a dict lookup that cannot miss (`d[k]` on a key known
to be present). -/
def junkEntry : FieldEntry := ⟨"", "", false⟩

/-- Stand-in table for a lookup that cannot miss. -/
def junkTable : TableM := ⟨"", "", []⟩

/-- `pname → fieldpath` dict of one table's realized fields
(instance.py:627-645, the dict half of the loops). -/
def buildDict (fields : List FieldEntry) : List (String × FieldEntry) :=
  fields.foldl (fun d fe => dinsert fe.pname fe d) []

/-- The `field_pname_order` extension of the old-table loop: a pname is
appended only when not seen yet (instance.py:644-645). -/
def extendOrder (ord : List String) (fields : List FieldEntry) : List String :=
  fields.foldl (fun o fe => if fe.pname ∈ o then o else o ++ [fe.pname]) ord

/-- The body of `diff_fields` for one common `(old_table, new_table)`
pair (instance.py:619-715).  The single Python loop per table builds
the dict and the order list with independent state; they are split into
`buildDict` and the order expressions here.  `IGNORE_VENUS` is `False`
in the source, so the venus-core guard always passes and is omitted.
The error is the "Moving tables between schemas" exception. -/
def diff_fields_one (oldT newT : TableM) : Except String FieldDiffM :=
  if oldT.schemaPath ≠ newT.schemaPath then
    .error "Moving tables between schemas is not supported."
  else
    let newD := buildDict newT.fields
    let oldD := buildDict oldT.fields
    let order := extendOrder (newT.fields.map (fun fe => fe.pname)) oldT.fields
    let toDropP := dkeys oldD \ dkeys newD
    let toCreateP := dkeys newD \ dkeys oldD
    let toUpgrade := dkeys newD ∩ dkeys oldD
    let toDropPaths := (order.filter (fun p => p ∈ toDropP)).map
      (fun p => (dget p oldD).getD junkEntry)
    let toCreatePaths := (order.filter (fun p => p ∈ toCreateP)).map
      (fun p => (dget p newD).getD junkEntry)
    let toRename : List (FieldEntry × FieldEntry) := []
    let toRetype := (flist toUpgrade).filterMap (fun p =>
      if ((dget p oldD).getD junkEntry).typespec ≠ ((dget p newD).getD junkEntry).typespec
      then some ((dget p oldD).getD junkEntry, (dget p newD).getD junkEntry) else none)
    let toDropNotnull := ((flist toUpgrade).filterMap (fun p =>
        if ((dget p oldD).getD junkEntry).notnull && !((dget p newD).getD junkEntry).notnull
        then some ((dget p oldD).getD junkEntry) else none))
      ++ ((flist toDropP).filterMap (fun p =>
        if ((dget p oldD).getD junkEntry).notnull
        then some ((dget p oldD).getD junkEntry) else none))
    let toCreateNotnull := ((flist toUpgrade).filterMap (fun p =>
        if !((dget p oldD).getD junkEntry).notnull && ((dget p newD).getD junkEntry).notnull
        then some ((dget p newD).getD junkEntry) else none))
      ++ ((flist toCreateP).filterMap (fun p =>
        if ((dget p newD).getD junkEntry).notnull
        then some ((dget p newD).getD junkEntry) else none))
    .ok ⟨toDropPaths, toCreatePaths, toRename, toRetype, toDropNotnull, toCreateNotnull,
      !(toDropPaths.isEmpty && toCreatePaths.isEmpty && toRename.isEmpty &&
        toRetype.isEmpty && toDropNotnull.isEmpty && toCreateNotnull.isEmpty)⟩

/-- `YASDLInstance.diff_fields` over all common table pairs. -/
def diff_fields (td : TableDiffM) : Except String (List FieldDiffM) :=
  (flist td.common).mapM (fun g =>
    diff_fields_one ((dget g td.old_tables).getD junkTable)
      ((dget g td.new_tables).getD junkTable))

/-! ## Physical naming (connection.py:476-515)

Python strings are embedded as character lists; bytes as naturals
below 256. -/

/-- One base64 digit under the altchars argument `b"_$"` of
`base64.b64encode(..., b"_$")`: the standard alphabet with `_` in place
of `+` (62) and `$` in place of `/` (63). -/
def b64char (k : Nat) : Char :=
  if k < 26 then Char.ofNat (65 + k)
  else if k < 52 then Char.ofNat (97 + (k - 26))
  else if k < 62 then Char.ofNat (48 + (k - 52))
  else if k = 62 then '_' else '$'

/-- Base64 of a byte list with `=` padding, as `base64.b64encode`
produces. -/
def b64encode : List Nat → List Char
  | [] => []
  | [a] => [b64char (a / 4), b64char (a % 4 * 16), '=', '=']
  | [a, b] => [b64char (a / 4), b64char (a % 4 * 16 + b / 16), b64char (b % 16 * 4), '=']
  | a :: b :: c :: rest =>
    b64char (a / 4) :: b64char (a % 4 * 16 + b / 16) :: b64char (b % 16 * 4 + c / 64) ::
      b64char (c % 64) :: b64encode rest

/-- `Connection.hashname` (connection.py:476-486).  The class attribute
`max_identifier_length` is the parameter `L` (31 in the base class, 63
in the PostgreSQL and Oracle adapters).  The external
`hashlib.sha256(basename.encode("UTF-8")).digest()` is abstracted as
the parameter `digest`; SHA-256 digests are 32 bytes long, which the
theorems take as a hypothesis on `digest`. -/
def hashname (L : Nat) (digest : List Char → List Nat) (basename : List Char) : List Char :=
  if basename.length > L then
    basename.take (L - 8) ++ ['_', '_'] ++ (b64encode (digest basename)).take 6
  else basename

/-- `Connection.makename` (connection.py:488-515): join the path parts
with `name_separator` (the class attribute `"$"`; here the parameter
`sep`) and apply `hashname`. -/
def makename (L : Nat) (digest : List Char → List Nat) (sep : Char)
    (path : List (List Char)) : List Char :=
  hashname L digest (List.intercalate [sep] path)

/-- A stand-in digest function for witnesses (any 32-byte digest
satisfies the theorems). -/
def dzero : List Char → List Nat := fun _ => List.replicate 32 0

/-! ## Ordered DDL plans (instance.py)

`YASDLInstance.upgrade` and `YASDLInstance.drop` execute a fixed
sequence of `upgrade_*` / `drop_*` method calls; the call order is
embedded as a list of step labels, one constructor per method. -/

/-- One `upgrade_*` method of `YASDLInstance`.  `upgradeAfterAll` is
the "After-all" step the specification names; no corresponding method
exists in instance.py. -/
inductive UpStep where
  | upgradeBeforeAll
  | upgradeCreateSchemas
  | upgradeCreateTables
  | upgradeDataRaw
  | upgradeDropFieldConstraints
  | upgradeDropTableConstraints
  | upgradeDropIndexes
  | upgradeDropTriggers
  | upgradeDropViews
  | upgradeCreateFields
  | upgradeChangeFieldTypes
  | upgradeDropFields
  | upgradeCreateTableConstraints
  | upgradeCreateFieldConstraints
  | upgradeCreateIndexes
  | upgradeCreateTriggers
  | upgradeCreateViews
  | upgradeCreateComments
  | upgradeData
  | upgradeDropTables
  | upgradeDropSchemas
  | upgradeAfterAll
deriving DecidableEq

/-- The sequence of steps `YASDLInstance.upgrade` performs after
computing the upgrade context (instance.py:759-798), in source
order. -/
def upgradePlan : List UpStep :=
  [UpStep.upgradeBeforeAll, UpStep.upgradeCreateSchemas, UpStep.upgradeCreateTables,
   UpStep.upgradeDataRaw,
   UpStep.upgradeDropFieldConstraints, UpStep.upgradeDropTableConstraints,
   UpStep.upgradeDropIndexes, UpStep.upgradeDropTriggers, UpStep.upgradeDropViews,
   UpStep.upgradeCreateFields, UpStep.upgradeChangeFieldTypes, UpStep.upgradeDropFields,
   UpStep.upgradeCreateTableConstraints, UpStep.upgradeCreateFieldConstraints,
   UpStep.upgradeCreateIndexes, UpStep.upgradeCreateTriggers, UpStep.upgradeCreateViews,
   UpStep.upgradeCreateComments, UpStep.upgradeData,
   UpStep.upgradeDropTables, UpStep.upgradeDropSchemas]

/-- The upgrade order the amended claim C5 describes (spec side):
before-all; create new schemas; create new tables; raw data; drop field
NOT NULL constraints, table constraints, indexes, triggers, views; add
new fields, change field types, drop obsolete fields; create table
constraints, field NOT NULL constraints, indexes, triggers, views,
comments, data; drop obsolete tables; drop obsolete schemas — with NO
final After-all step. -/
def specUpgradeOrderAmended : List UpStep :=
  [UpStep.upgradeBeforeAll, UpStep.upgradeCreateSchemas, UpStep.upgradeCreateTables,
   UpStep.upgradeDataRaw,
   UpStep.upgradeDropFieldConstraints, UpStep.upgradeDropTableConstraints,
   UpStep.upgradeDropIndexes, UpStep.upgradeDropTriggers, UpStep.upgradeDropViews,
   UpStep.upgradeCreateFields, UpStep.upgradeChangeFieldTypes, UpStep.upgradeDropFields,
   UpStep.upgradeCreateTableConstraints, UpStep.upgradeCreateFieldConstraints,
   UpStep.upgradeCreateIndexes, UpStep.upgradeCreateTriggers, UpStep.upgradeCreateViews,
   UpStep.upgradeCreateComments, UpStep.upgradeData,
   UpStep.upgradeDropTables, UpStep.upgradeDropSchemas]

/-- One `drop_*` method of `YASDLInstance`. -/
inductive DropStep where
  | beforeAll | data | comments | views | triggers | constraints | indexes | dataRaw
  | tables | schemas | afterAll
deriving DecidableEq

/-- `YASDLInstance.drop` (instance.py:547-582) as the plan of steps it
would execute.  `options` is the Python `options` argument (`none`
models `options=None`); the result is the step sequence, or the
`KeyError` that `options["force"]` (line 569) raises when the dict
holds no "force" key.  Only `ignore_exceptions` receives a default
(line 567), although the docstring documents `force=False` as one. -/
def dropPlan (options : Option (List (String × Bool))) : Except String (List DropStep) :=
  let opts0 := options.getD []
  let opts := dinsert "ignore_exceptions" ((dget "ignore_exceptions" opts0).getD false) opts0
  match dget "force" opts with
  | none => Except.error "KeyError: force"
  | some true => Except.ok [DropStep.schemas]
  | some false => Except.ok
      [DropStep.beforeAll, DropStep.data, DropStep.comments, DropStep.views,
       DropStep.triggers, DropStep.constraints, DropStep.indexes, DropStep.dataRaw,
       DropStep.tables, DropStep.schemas, DropStep.afterAll]

/-! ## Physical-name cache (instance.py:190-260)

`_cache_pnames` fills `self._pnames`, keyed by schema objects, table
objects and `(table,) + fieldpath` tuples; the key space is embedded as
`PKey`.  `nameOf` stands for the `conn.make*name` results.  (The
`_pknames`/`_fknames`/`_idxnames`/`_constraintnames` dicts are built
analogously and no claim consults them.) -/

/-- A key of the `_pnames` dict. -/
inductive PKey where
  | schemaK (s : Nat)
  | tableK (t : Nat)
  | fieldK (t : Nat) (path : List Nat)
deriving DecidableEq

/-- An instance as `_cache_pnames` consumes it: all schemas of the
parse result (in `iterate([YASDLSchema])` order), the realized toplevel
fieldsets (`toplevel_realized_fieldsets()`), and per table the
contained field paths with their `realized` flags. -/
structure Inst7 where
  schemas : List Nat
  tables : List Nat
  fieldPaths : Nat → List (List Nat × Bool)
  nameOf : PKey → String

/-- `_cache_pnames` (instance.py:190-236): schema names are cached for
EVERY schema of the parse result (line 204-206); table and realized
field names only for realized toplevel fieldsets. -/
def cachePnames (I : Inst7) : List (PKey × String) :=
  let d1 := I.schemas.foldl
    (fun d s => dinsert (PKey.schemaK s) (I.nameOf (PKey.schemaK s)) d) []
  I.tables.foldl (fun d t =>
    (I.fieldPaths t).foldl (fun d3 fp =>
      if fp.2 then dinsert (PKey.fieldK t fp.1) (I.nameOf (PKey.fieldK t fp.1)) d3 else d3)
      (dinsert (PKey.tableK t) (I.nameOf (PKey.tableK t)) d)) d1

/-- The Python exceptions the accessors raise. -/
inductive PErr where
  | keyError | notRealized
deriving DecidableEq

/-- `get_schema_pname` (instance.py:238-246): a bare dict subscript; a
missing key raises plain `KeyError`, not `NotRealizedError`. -/
def get_schema_pname (I : Inst7) (s : Nat) : Except PErr String :=
  match dget (PKey.schemaK s) (cachePnames I) with
  | some v => Except.ok v
  | none => Except.error PErr.keyError

/-- `get_table_pname` (instance.py:248-260): the dict subscript wrapped
in `try/except KeyError: raise NotRealizedError()`. -/
def get_table_pname (I : Inst7) (t : Nat) : Except PErr String :=
  match dget (PKey.tableK t) (cachePnames I) with
  | some v => Except.ok v
  | none => Except.error PErr.notRealized

/-- `get_field_pname` (instance.py:276-290), same wrapping. -/
def get_field_pname (I : Inst7) (t : Nat) (path : List Nat) : Except PErr String :=
  match dget (PKey.fieldK t path) (cachePnames I) with
  | some v => Except.ok v
  | none => Except.error PErr.notRealized

/-- C7 counterexample instance: two schemas 0 and 1; only table 10
(owned by schema 1) is realized, with realized field path [5]; schema 0
has no realized toplevel fieldsets. -/
def i7cex : Inst7 where
  schemas := [0, 1]
  tables := [10]
  fieldPaths := fun t => if t = 10 then [([5], true)] else []
  nameOf := fun k =>
    match k with
    | PKey.schemaK s => "s" ++ toString s
    | PKey.tableK t => "t" ++ toString t
    | PKey.fieldK _ _ => "f"

/-! ## Compiler message formatting (compiler.py:12-75) -/

/-- A compiler message: origin position, severity (`get_message_kind()`
returns "E"/"W"/"N"), optional 5-digit code, definition path and
text. -/
structure CMessage where
  sourcefile : String
  lineno : Int
  colno : Int
  kind : String
  code : Option String
  path : String
  message : String

/-- `CompilerMessage.gnu_format` (compiler.py:23-33): the format string
is `'"%s":%s:%s:%s:%s'` applied to `getsourcefile()`, `lineno`,
`get_message_kind() + (code or "")`, `getpath(False)` and the message —
five fields; the column number is not among them. -/
def gnu_format (msg : CMessage) : String :=
  "\"" ++ msg.sourcefile ++ "\":" ++ toString msg.lineno ++ ":" ++
    (msg.kind ++ msg.code.getD "") ++ ":" ++ msg.path ++ ":" ++ msg.message

/-- The shape claim C8 asserts (spec side): FILE, LINE, COL, severity
tagged code, PATH, MESSAGE. -/
def gnuShapeWithCol (msg : CMessage) : String :=
  "\"" ++ msg.sourcefile ++ "\":" ++ toString msg.lineno ++ ":" ++ toString msg.colno ++
    ":" ++ (msg.kind ++ msg.code.getD "") ++ ":" ++ msg.path ++ ":" ++ msg.message

/-- The amended shape (spec side): FILE, LINE, severity-tagged code,
PATH, MESSAGE — no column field. -/
def gnuShapeNoCol (msg : CMessage) : String :=
  "\"" ++ msg.sourcefile ++ "\":" ++ toString msg.lineno ++ ":" ++
    (msg.kind ++ msg.code.getD "") ++ ":" ++ msg.path ++ ":" ++ msg.message

/-- A concrete compiler error message for the C8 counterexample. -/
def c8msg : CMessage := ⟨"f.yasdl", 3, 7, "E", some "01011", "a.b", "bad"⟩

/-- A one-schema one-table instance for the C3 witness. -/
def i3wit : InstanceM := ⟨["g"], [⟨"tg", "s", [⟨"p", "int", true⟩]⟩]⟩

/-! End of the embedded definitions; the development below proves the
properties of the claims. -/

/-! ## Lemmas -/

theorem fixLoop_isFix {α : Type} [DecidableEq α] {f : α → α} :
    ∀ {n : Nat} {s r : α}, fixLoop f n s = some r → f r = r := by
  intro n
  induction n with
  | zero => intro s r h; simp [fixLoop] at h
  | succ k ih =>
    intro s r h
    simp only [fixLoop] at h
    split at h
    · next heq => cases h; rw [heq]; exact heq
    · exact ih h

theorem fixLoop_inv {α : Type} [DecidableEq α] {f : α → α} (P : α → Prop)
    (hstep : ∀ x, P x → P (f x)) :
    ∀ {n : Nat} {s r : α}, fixLoop f n s = some r → P s → P r := by
  intro n
  induction n with
  | zero => intro s r h; simp [fixLoop] at h
  | succ k ih =>
    intro s r h hs
    simp only [fixLoop] at h
    split at h
    · cases h; exact hstep s hs
    · exact ih h (hstep s hs)

theorem fiAux_congr {di : Nat → Option Nat} {r : Nat → Nat} (hr : DIRanked di r) :
    ∀ {n m : Nat} (i : Nat), r i < n → r i < m → fiAux di n i = fiAux di m i := by
  intro n
  induction n with
  | zero => intro m i hn _; omega
  | succ k ih =>
    intro m i hn hm
    match m, hm with
    | m + 1, hm =>
      show fiAux di (k + 1) i = fiAux di (m + 1) i
      simp only [fiAux]
      cases hdi : di i with
      | none => rfl
      | some j =>
        have hj := hr i j hdi
        exact ih j (by omega) (by omega)

theorem fiAux_di_none {di : Nat → Option Nat} {r : Nat → Nat} (hr : DIRanked di r) :
    ∀ {n : Nat} (i : Nat), r i < n → di (fiAux di n i) = none := by
  intro n
  induction n with
  | zero => intro i hn; omega
  | succ k ih =>
    intro i hn
    simp only [fiAux]
    cases hdi : di i with
    | none => exact hdi
    | some j =>
      have hj := hr i j hdi
      exact ih j (by omega)

theorem fiAux_rank_le {di : Nat → Option Nat} {r : Nat → Nat} (hr : DIRanked di r) :
    ∀ {n : Nat} (i : Nat), r (fiAux di n i) ≤ r i := by
  intro n
  induction n with
  | zero => intro i; simp [fiAux]
  | succ k ih =>
    intro i
    simp only [fiAux]
    cases hdi : di i with
    | none => simp
    | some j =>
      have hj := hr i j hdi
      exact le_trans (ih j) (by omega)

theorem fiAux_of_none {di : Nat → Option Nat} {n : Nat} (x : Nat) (h : di x = none) :
    fiAux di n x = x := by
  cases n <;> simp [fiAux, h]

theorem fiAux_idem {di : Nat → Option Nat} {r : Nat → Nat} (hr : DIRanked di r)
    {n : Nat} (i : Nat) (hn : r i < n) : fiAux di n (fiAux di n i) = fiAux di n i :=
  fiAux_of_none _ (fiAux_di_none hr i hn)

theorem fiAux_di_some {di : Nat → Option Nat} {r : Nat → Nat} (hr : DIRanked di r)
    {n : Nat} (i j : Nat) (hn : r i < n) (hdi : di i = some j) :
    fiAux di n i = fiAux di n j := by
  match n with
  | m + 1 =>
    have hj := hr i j hdi
    calc fiAux di (m + 1) i = fiAux di m j := by simp only [fiAux]; rw [hdi]
    _ = fiAux di (m + 1) j := fiAux_congr hr j (by omega) (by omega)

/-! ### Claim C2: membership in the final implementor's specifications -/

theorem specStep_closed {items : List Nat} {di : Nat → Option Nat} {F : Nat}
    {S : Finset Nat} (hfix : specStep items di F S = S) :
    ∀ sp, sp ∈ items → specCond di F S sp = true → sp ∈ S := by
  intro sp hsp hcond
  have hsub : (items.filter (specCond di F S)).toFinset ⊆ S := by
    intro x hx
    rw [← hfix]
    exact Finset.mem_union_right _ hx
  exact hsub (by simp [List.mem_filter, hsp, hcond])

theorem specs_mem_of_ne (A : Arena) (r : Nat → Nat)
    (hr : DIRanked A.di r) (hrn : ∀ i, r i < A.n)
    (hdik : ∀ i j, A.di i = some j → isImpl A j = true)
    (hdin : ∀ i j, A.di i = some j → j < A.n)
    (F : Nat) (S : Finset Nat) (hS : specifications A F = some S) :
    ∀ e, e < A.n → isImpl A e = true → finalImp A e = F → e ≠ F → e ∈ S := by
  have hfix := fixLoop_isFix hS
  have hclosed := specStep_closed hfix
  suffices h : ∀ k e, r e < k → e < A.n → isImpl A e = true →
      finalImp A e = F → e ≠ F → e ∈ S by
    intro e he hke hfe hne
    exact h (r e + 1) e (by omega) he hke hfe hne
  intro k
  induction k with
  | zero => intro e h; omega
  | succ m ih =>
    intro e hrk he hke hfe hne
    cases hdi : A.di e with
    | none =>
      have heF : e = F := by
        rw [← hfe, finalImp, fiAux_of_none e hdi]
      exact absurd heF hne
    | some j =>
      have hmem : e ∈ partitionOf A F := by
        simp [partitionOf, List.mem_filter, List.mem_range, he, hke, hfe]
      by_cases hjF : j = F
      · exact hclosed e hmem (by simp [specCond, hdi, hjF])
      · have hfj : finalImp A j = F := by
          rw [← hfe, finalImp, finalImp]
          exact (fiAux_di_some hr e j (hrn e) hdi).symm
        have hjS : j ∈ S :=
          ih j (by have := hr e j hdi; omega) (hdin e j hdi) (hdik e j hdi) hfj hjF
        exact hclosed e hmem (by simp [specCond, hdi, hjS])

theorem specs_not_self (A : Arena) {F : Nat} (hdiF : A.di F = none)
    {S : Finset Nat} (hS : specifications A F = some S) : F ∉ S := by
  refine fixLoop_inv (fun s : Finset Nat => F ∉ s) ?_ hS (by simp)
  intro s hs hmem
  simp only [specStep, Finset.mem_union, List.mem_toFinset, List.mem_filter] at hmem
  rcases hmem with h | ⟨_, hcond⟩
  · exact hs h
  · simp [specCond, hdiF] at hcond

/-- C2 (amended): in a compiled schema set, every field or fieldset
declaration whose final implementor is a different declaration is a
member of that final implementor's `specifications` set; a declaration
that is its own final implementor (one that has no implementor) is NOT
a member of its own `specifications` set.  The hypotheses record what
earlier compile phases guarantee: acyclicity of `direct_implementor`
(phase 1 step 9, via the rank `r`), and that implementors are
field/fieldset definitions of the compilation. -/
theorem C2_final_implementor_specifications (A : Arena) (r : Nat → Nat)
    (hr : DIRanked A.di r) (hrn : ∀ i, r i < A.n)
    (hdik : ∀ i j, A.di i = some j → isImpl A j = true)
    (hdin : ∀ i j, A.di i = some j → j < A.n)
    (d : Nat) (hd : d < A.n) (hk : isImpl A d = true)
    (S : Finset Nat) (hS : specifications A (finalImp A d) = some S) :
    (finalImp A d ≠ d → d ∈ S) ∧ finalImp A d ∉ S := by
  constructor
  · intro hne
    exact specs_mem_of_ne A r hr hrn hdik hdin _ S hS d hd hk rfl (Ne.symm hne)
  · exact specs_not_self A (fiAux_di_none hr d (hrn d)) hS

/-- C2 counterexample: in the one-fieldset compilation `c2cex`, the
fieldset is its own final implementor and its `specifications` set is
empty, so the claim "every declaration D satisfies
D ∈ D.final_implementor.specifications" is false as stated. -/
theorem C2_counterexample : ¬ ClaimC2 c2cex := by
  intro h
  have h0 := h 0 (by decide) (by decide) ∅ (by decide)
  exact absurd h0 (by decide)

/-- C2 witness: in `c2wit`, fieldset 0 is implemented by fieldset 1,
and indeed 0 is a member of the `specifications` of its final
implementor 1. -/
theorem C2_final_implementor_specifications_witness :
    finalImp c2wit 0 ≠ 0 ∧ 0 ∈ ({0} : Finset Nat) := by
  refine ⟨by decide, ?_⟩
  refine (C2_final_implementor_specifications c2wit c2witRank ?_ ?_ ?_ ?_
    0 (by decide) (by decide) {0} (by decide)).1 (by decide)
  · intro i j h
    simp only [c2wit] at h
    by_cases hi : i = 0
    · simp [hi] at h
      subst h
      simp [c2witRank, hi]
    · simp [hi] at h
  · intro i
    show c2witRank i < 2
    simp only [c2witRank]
    split <;> omega
  · intro i j h
    simp only [c2wit] at h
    by_cases hi : i = 0
    · simp [hi] at h; subst h; decide
    · simp [hi] at h
  · intro i j h
    simp only [c2wit] at h
    by_cases hi : i = 0
    · simp [hi] at h; subst h; decide
    · simp [hi] at h

/-! ### Generic fold lemmas -/

theorem foldl_congr_mem {α β : Type} {f g : α → β → α} :
    ∀ (l : List β) (a : α), (∀ x ∈ l, ∀ acc, f acc x = g acc x) →
      l.foldl f a = l.foldl g a := by
  intro l
  induction l with
  | nil => intro a _; rfl
  | cons x t ih =>
    intro a h
    simp only [List.foldl_cons]
    rw [h x (by simp)]
    exact ih _ (fun y hy acc => h y (by simp [hy]) acc)

theorem foldl_preserve_mem {α β : Type} {P : α → Prop} {f : α → β → α} :
    ∀ (l : List β), (∀ acc b, b ∈ l → P acc → P (f acc b)) →
      ∀ acc, P acc → P (l.foldl f acc) := by
  intro l
  induction l with
  | nil => intro _ acc h; exact h
  | cons x t ih =>
    intro h acc hacc
    exact ih (fun acc b hb => h acc b (by simp [hb])) _ (h acc x (by simp) hacc)

theorem foldl_establish {α β : Type} {P : α → Prop} {f : α → β → α} {l : List β} {b0 : β}
    (hb : b0 ∈ l) (hest : ∀ acc, P (f acc b0))
    (hpres : ∀ acc b, b ∈ l → P acc → P (f acc b)) :
    ∀ acc, P (l.foldl f acc) := by
  intro acc
  obtain ⟨l1, l2, rfl⟩ := List.append_of_mem hb
  rw [List.foldl_append, List.foldl_cons]
  refine foldl_preserve_mem l2 (fun acc b hbmem hP => hpres acc b ?_ hP) _ (hest _)
  simp [hbmem]

/-! ### Stability of the member cache in its fuel -/

theorem membersAux_stable (A : Arena) (htopo : AncsTopo A) :
    ∀ (i : Nat), ∀ {f : Nat}, i < f → membersAux A f i = membersAux A (i + 1) i := by
  intro i
  induction i using Nat.strong_induction_on with
  | _ i ih =>
    intro f hf
    match f, hf with
    | k + 1, hf =>
      show membersAux A (k + 1) i = membersAux A (i + 1) i
      simp only [membersAux]
      have hcongr : ∀ a ∈ A.ancs i, ∀ st,
          (membersAux A k a).1.foldl (insertInherited A (deletionsOf A i)) st =
          (membersAux A i a).1.foldl (insertInherited A (deletionsOf A i)) st := by
        intro a ha st
        have hai : a < i := htopo i a ha
        rw [ih a hai (show a < k by omega), ih a hai (show a < i by omega)]
      rw [foldl_congr_mem _ _ (fun a ha st => hcongr a ha st)]

/-! ### Claim C9: cached members are final implementors -/

theorem mem_map_replace {l : List Nat} {g : Nat → Nat} {e : Nat} (h : e ∈ l.map g) :
    ∃ x ∈ l, e = g x := by
  obtain ⟨x, hx, rfl⟩ := List.mem_map.mp h
  exact ⟨x, hx, rfl⟩

theorem insertInherited_mem {A : Arena} {dels : Finset String}
    {st : List Nat × Finset String} {im e : Nat}
    (h : e ∈ (insertInherited A dels st im).1) : e ∈ st.1 ∨ e = im := by
  simp only [insertInherited] at h
  split at h
  · exact Or.inl h
  · split at h
    · exact Or.inl h
    · split at h
      · obtain ⟨x, hx, rfl⟩ := mem_map_replace h
        split
        · exact Or.inr rfl
        · exact Or.inl hx
      · rcases List.mem_append.mp h with h | h
        · exact Or.inl h
        · exact Or.inr (by simpa using h)

theorem insertLocal_mem {A : Arena} {mem : List Nat} {c e : Nat}
    (h : e ∈ insertLocal A mem c) : e ∈ mem ∨ e = fiOf A c := by
  simp only [insertLocal] at h
  split at h
  · exact Or.inl h
  · split at h
    · obtain ⟨x, hx, rfl⟩ := mem_map_replace h
      split
      · exact Or.inr rfl
      · exact Or.inl hx
    · rcases List.mem_append.mp h with h | h
      · exact Or.inl h
      · exact Or.inr (by simpa using h)

/-- C9: in every cached effective member list, each member that is a
field or fieldset definition is its own final implementor: the local
merge step of `_cache_members` stores `item.final_implementor` in place
of the declared item, inherited members were already so replaced at
their origin, and `final_implementor` is idempotent.  Hypotheses: the
rank `r` witnesses acyclicity of `direct_implementor` (phase 1 step 9),
and arena identifiers are a topological order of the (acyclic)
inheritance graph (phase 3 step 2). -/
theorem C9_members_are_final_implementors (A : Arena) (r : Nat → Nat)
    (hr : DIRanked A.di r) (hrn : ∀ i, r i < A.n) (htopo : AncsTopo A) :
    ∀ i, ∀ e ∈ membersOf A i, isImpl A e = true → finalImp A e = e := by
  intro i
  induction i using Nat.strong_induction_on with
  | _ i ih =>
    have hgoodfi : ∀ c, isImpl A (fiOf A c) = true → finalImp A (fiOf A c) = fiOf A c := by
      intro c hkc
      by_cases hc : isImpl A c = true
      · rw [fiOf, if_pos hc]
        exact fiAux_idem hr c (hrn c)
      · rw [fiOf, if_neg hc] at hkc
        exact absurd hkc hc
    intro e he hke
    unfold membersOf at he
    simp only [membersAux] at he
    set dels := deletionsOf A i with hdels
    have hinh : ∀ e ∈ ((A.ancs i).foldl
        (fun st a => (membersAux A i a).1.foldl (insertInherited A dels) st)
        ([], ∅)).1, isImpl A e = true → finalImp A e = e := by
      refine foldl_preserve_mem (P := fun st : List Nat × Finset String =>
        ∀ e ∈ st.1, isImpl A e = true → finalImp A e = e) _ ?_ _ (by simp)
      intro st a ha hst
      have hsa : a < i := htopo i a ha
      have hmem : ∀ im ∈ (membersAux A i a).1, isImpl A im = true → finalImp A im = im := by
        rw [membersAux_stable A htopo a hsa]
        exact fun im him => ih a hsa im him
      refine foldl_preserve_mem (P := fun st : List Nat × Finset String =>
        ∀ e ∈ st.1, isImpl A e = true → finalImp A e = e) _ ?_ _ hst
      intro st2 im him2 hst2 e2 he2 hke2
      rcases insertInherited_mem he2 with h | rfl
      · exact hst2 e2 h hke2
      · exact hmem e2 him2 hke2
    refine foldl_preserve_mem (P := fun mem : List Nat =>
      ∀ e ∈ mem, isImpl A e = true → finalImp A e = e) _ ?_ _ hinh e he hke
    intro mem c _ hmem e2 he2 hke2
    rcases insertLocal_mem he2 with h | rfl
    · exact hmem e2 h hke2
    · exact hgoodfi c hke2

/-- C9 witness: in `c9wit`, the member cache of fieldset 2 stores the
final implementor 1 in place of the declared field 0, and 1 is indeed
its own final implementor. -/
theorem C9_members_are_final_implementors_witness :
    1 ∈ membersOf c9wit 2 ∧ isImpl c9wit 1 = true ∧ finalImp c9wit 1 = 1 := by
  refine ⟨by decide, by decide, ?_⟩
  refine C9_members_are_final_implementors c9wit c9witRank ?_ ?_ ?_ 2 1 (by decide) (by decide)
  · intro i j h
    simp only [c9wit] at h
    by_cases hi : i = 0
    · subst hi; simp at h; subst h; decide
    · simp [hi] at h
  · intro i
    show c9witRank i < 3
    simp only [c9witRank]; split <;> omega
  · intro i c hc
    simp only [c9wit] at hc
    simp at hc

/-! ### Claim C6: rename by deletion with a local override -/

theorem find_eq_of_unique {α : Type} (p : α → Bool) :
    ∀ (l : List α) (b : α), b ∈ l → p b = true → (∀ e ∈ l, p e = true → e = b) →
      l.find? p = some b := by
  intro l
  induction l with
  | nil => intro b hb _ _; simp at hb
  | cons c t ih =>
    intro b hb hpb huni
    cases hc : p c with
    | false =>
      have hbc : b ≠ c := by
        intro h; rw [h, hc] at hpb; cases hpb
      have hbt : b ∈ t := by
        rcases List.mem_cons.mp hb with h | h
        · exact absurd h hbc
        · exact h
      rw [List.find?_cons_of_neg t (by simp [hc])]
      exact ih b hbt hpb (fun e he hpe => huni e (List.mem_cons_of_mem _ he) hpe)
    | true =>
      rw [List.find?_cons_of_pos t hc]
      exact congrArg some (huni c (List.mem_cons_self _ _) hc)

theorem insertInherited_nodel {A : Arena} {dels : Finset String}
    {st : List Nat × Finset String} {im : Nat}
    (h : ∀ e ∈ st.1, A.name e ∉ dels) :
    ∀ e ∈ (insertInherited A dels st im).1, A.name e ∉ dels := by
  intro e he
  simp only [insertInherited] at he
  split at he
  · exact h e he
  · split at he
    · exact h e he
    · next hnd =>
      split at he
      · obtain ⟨y, hy, rfl⟩ := mem_map_replace he
        split
        · exact hnd
        · exact h y hy
      · rcases List.mem_append.mp he with h2 | h2
        · exact h e h2
        · simp only [List.mem_singleton] at h2
          subst h2
          exact hnd

theorem insertInherited_used_mono {A : Arena} {dels : Finset String}
    {st : List Nat × Finset String} {im : Nat} {x : String} (h : x ∈ st.2) :
    x ∈ (insertInherited A dels st im).2 := by
  simp only [insertInherited]
  split
  · exact h
  · split
    · exact Finset.mem_insert_of_mem h
    · split
      · exact h
      · exact h

theorem insertInherited_used_est {A : Arena} {dels : Finset String}
    {st : List Nat × Finset String} {im : Nat}
    (h1 : ¬(A.name im = "implements" ∨ A.name im = "ancestors"))
    (h2 : A.name im ∈ dels) :
    A.name im ∈ (insertInherited A dels st im).2 := by
  simp only [insertInherited, if_neg h1, if_pos h2]
  exact Finset.mem_insert_self _ _

theorem inhState_nodel (A : Arena) (fuel i : Nat) :
    ∀ e ∈ (inhState A fuel i).1, A.name e ∉ deletionsOf A i := by
  unfold inhState
  refine foldl_preserve_mem (P := fun st : List Nat × Finset String =>
    ∀ e ∈ st.1, A.name e ∉ deletionsOf A i) _ ?_ _ (by simp)
  intro st a _ hst
  refine foldl_preserve_mem (P := fun st : List Nat × Finset String =>
    ∀ e ∈ st.1, A.name e ∉ deletionsOf A i) _ ?_ _ hst
  intro st2 im _ hst2
  exact insertInherited_nodel hst2

theorem members_name_exists (A : Arena) {a fa : Nat} {x : String}
    (hfa : fa ∈ A.childs a) (hkfa : A.kind fa = Kind.field)
    (hnfa : A.name fa = x) (hdifa : A.di fa = none) :
    ∃ e ∈ membersOf A a, A.name e = x := by
  have hfio : fiOf A fa = fa := by
    rw [fiOf, if_pos (by simp [isImpl, hkfa])]
    exact fiAux_of_none fa hdifa
  show ∃ e ∈ (A.childs a).foldl (insertLocal A) (inhState A a a).1, A.name e = x
  refine foldl_establish (P := fun mem => ∃ e ∈ mem, A.name e = x) hfa ?_ ?_ _
  · intro mem
    simp only [insertLocal, hfio]
    rw [if_neg (show ¬(A.kind fa = Kind.deletion) by rw [hkfa]; intro h; cases h)]
    split
    · next hany =>
      obtain ⟨y, hy, hpy⟩ := List.any_eq_true.mp hany
      simp only [decide_eq_true_eq] at hpy
      exact ⟨fa, List.mem_map.mpr ⟨y, hy, by rw [if_pos hpy]⟩, hnfa⟩
    · exact ⟨fa, List.mem_append.mpr (Or.inr (by simp)), hnfa⟩
  · rintro mem c _ ⟨e, he, hne⟩
    simp only [insertLocal]
    split
    · exact ⟨e, he, hne⟩
    · split
      · by_cases hyn : A.name e = A.name (fiOf A c)
        · refine ⟨fiOf A c, List.mem_map.mpr ⟨e, he, by rw [if_pos hyn]⟩, ?_⟩
          rw [← hyn]; exact hne
        · exact ⟨e, List.mem_map.mpr ⟨e, he, by rw [if_neg hyn]⟩, hne⟩
      · exact ⟨e, List.mem_append.mpr (Or.inl he), hne⟩

theorem inhState_used_est (A : Arena) (htopo : AncsTopo A) {b a fa : Nat} {x : String}
    (hab : a ∈ A.ancs b)
    (hfa : fa ∈ A.childs a) (hkfa : A.kind fa = Kind.field)
    (hnfa : A.name fa = x) (hdifa : A.di fa = none)
    (hx1 : x ≠ "implements") (hx2 : x ≠ "ancestors")
    (hxdel : x ∈ deletionsOf A b) :
    x ∈ (inhState A b b).2 := by
  obtain ⟨e0, he0, hne0⟩ := members_name_exists A hfa hkfa hnfa hdifa
  unfold inhState
  refine foldl_establish (P := fun st : List Nat × Finset String => x ∈ st.2) hab ?_ ?_ _
  · intro st
    have hrw : (membersAux A b a).1 = membersOf A a := by
      rw [membersAux_stable A htopo a (htopo b a hab)]; rfl
    rw [hrw]
    refine foldl_establish (P := fun st : List Nat × Finset String => x ∈ st.2) he0 ?_ ?_ st
    · intro st2
      have hin : A.name e0 ∈ (insertInherited A (deletionsOf A b) st2 e0).2 := by
        refine insertInherited_used_est ?_ (by rw [hne0]; exact hxdel)
        rw [hne0]
        rintro (h | h)
        · exact hx1 h
        · exact hx2 h
      rw [hne0] at hin
      exact hin
    · intro st2 im _ h
      exact insertInherited_used_mono h
  · intro st a2 _ h
    refine foldl_preserve_mem (P := fun st : List Nat × Finset String => x ∈ st.2) _ ?_ _ h
    intro st2 im _ h2
    exact insertInherited_used_mono h2

theorem insertLocal_unique_pres (A : Arena) {b : Nat} {x : String} {fb : Nat}
    {mem : List Nat} {c : Nat}
    (hc : c ∈ A.childs b)
    (huniq : ∀ c2 ∈ A.childs b, c2 ≠ fb → A.kind (fiOf A c2) ≠ Kind.deletion →
      A.name (fiOf A c2) ≠ x)
    (hfiOfb : fiOf A fb = fb)
    (hmem : ∀ e ∈ mem, A.name e = x → e = fb) :
    ∀ e ∈ insertLocal A mem c, A.name e = x → e = fb := by
  intro e he
  simp only [insertLocal] at he
  split at he
  · exact hmem e he
  · next hnotdel =>
    have hcx : A.name (fiOf A c) = x → fiOf A c = fb := by
      intro hnx
      by_cases hcfb : c = fb
      · rw [hcfb, hfiOfb]
      · exact absurd hnx (huniq c hc hcfb hnotdel)
    split at he
    · obtain ⟨y, hy, rfl⟩ := mem_map_replace he
      by_cases hyn : A.name y = A.name (fiOf A c)
      · rw [if_pos hyn]
        exact hcx
      · rw [if_neg hyn]
        exact hmem y hy
    · rcases List.mem_append.mp he with h2 | h2
      · exact hmem e h2
      · simp only [List.mem_singleton] at h2
        subst h2
        exact hcx

theorem insertLocal_keeps_fb (A : Arena) {b : Nat} {x : String} {fb : Nat}
    {mem : List Nat} {c : Nat}
    (hc : c ∈ A.childs b) (hnfb : A.name fb = x)
    (huniq : ∀ c2 ∈ A.childs b, c2 ≠ fb → A.kind (fiOf A c2) ≠ Kind.deletion →
      A.name (fiOf A c2) ≠ x)
    (hfiOfb : fiOf A fb = fb)
    (hfbm : fb ∈ mem) : fb ∈ insertLocal A mem c := by
  simp only [insertLocal]
  split
  · exact hfbm
  · next hnotdel =>
    split
    · by_cases hcfb : c = fb
      · simp only [hcfb, hfiOfb]
        exact List.mem_map.mpr ⟨fb, hfbm, by rw [if_pos rfl]⟩
      · have hnx : A.name (fiOf A c) ≠ x := huniq c hc hcfb hnotdel
        have hcond : ¬(A.name fb = A.name (fiOf A c)) := by
          intro h
          exact hnx (by rw [← h, hnfb])
        refine List.mem_map.mpr ⟨fb, hfbm, ?_⟩
        rw [if_neg hcond]
    · exact List.mem_append.mpr (Or.inl hfbm)

theorem insertLocal_est_fb (A : Arena) {fb : Nat}
    (hkfb : A.kind fb = Kind.field) (hfiOfb : fiOf A fb = fb) :
    ∀ mem, fb ∈ insertLocal A mem fb := by
  intro mem
  simp only [insertLocal, hfiOfb]
  rw [if_neg (show ¬(A.kind fb = Kind.deletion) by rw [hkfb]; intro h; cases h)]
  split
  · next hany =>
    obtain ⟨y, hy, hpy⟩ := List.any_eq_true.mp hany
    simp only [decide_eq_true_eq] at hpy
    exact List.mem_map.mpr ⟨y, hy, by rw [if_pos hpy]⟩
  · exact List.mem_append.mpr (Or.inr (by simp))

/-- C6: if fieldset `b` lists `a` among its ancestors, `a` declares a
field named `x`, and `b` declares both a deletion of `x` and a local
field `fb` named `x` (its only non-deletion child of that name, with no
implementor), then after member caching the effective member `x` of `b`
is the locally declared field `fb`, the deletion counts as used, and
phase 3 step 7 emits no unused-deletion warning for the deletion
item. -/
theorem C6_deletion_with_local_override (A : Arena) (htopo : AncsTopo A)
    (a b : Nat) (x : String) (fa fb da : Nat)
    (hx1 : x ≠ "implements") (hx2 : x ≠ "ancestors")
    (hab : a ∈ A.ancs b)
    (hfa : fa ∈ A.childs a) (hkfa : A.kind fa = Kind.field)
    (hnfa : A.name fa = x) (hdifa : A.di fa = none)
    (hfb : fb ∈ A.childs b) (hkfb : A.kind fb = Kind.field)
    (hnfb : A.name fb = x) (hdifb : A.di fb = none)
    (hda : da ∈ A.childs b) (hkda : A.kind da = Kind.deletion) (hnda : A.name da = x)
    (huniq : ∀ c ∈ A.childs b, c ≠ fb → A.kind (fiOf A c) ≠ Kind.deletion →
      A.name (fiOf A c) ≠ x) :
    memberByName A b x = some fb ∧ x ∈ usedDels A b ∧ da ∉ deletionWarnings A b := by
  have hfiOfb : fiOf A fb = fb := by
    rw [fiOf, if_pos (by simp [isImpl, hkfb])]
    exact fiAux_of_none fb hdifb
  have hxdel : x ∈ deletionsOf A b := by
    simp only [deletionsOf, List.mem_toFinset, List.mem_map, List.mem_filter]
    exact ⟨da, ⟨hda, by simp [hkda]⟩, hnda⟩
  have hused : x ∈ usedDels A b := by
    show x ∈ (inhState A b b).2
    exact inhState_used_est A htopo hab hfa hkfa hnfa hdifa hx1 hx2 hxdel
  refine ⟨?_, hused, ?_⟩
  · show ((A.childs b).foldl (insertLocal A) (inhState A b b).1).find?
      (fun e => A.name e = x) = some fb
    have hstart : ∀ e ∈ (inhState A b b).1, A.name e = x → e = fb := by
      intro e he hne
      exact absurd (hne.symm ▸ hxdel) (inhState_nodel A b b e he)
    have huniq2 : ∀ e ∈ (A.childs b).foldl (insertLocal A) (inhState A b b).1,
        A.name e = x → e = fb := by
      refine foldl_preserve_mem (P := fun mem => ∀ e ∈ mem, A.name e = x → e = fb)
        _ ?_ _ hstart
      intro mem c hc hmem
      exact insertLocal_unique_pres A hc huniq hfiOfb hmem
    have hfbmem : fb ∈ (A.childs b).foldl (insertLocal A) (inhState A b b).1 := by
      refine foldl_establish hfb ?_ ?_ _
      · exact insertLocal_est_fb A hkfb hfiOfb
      · intro mem c hc hm
        exact insertLocal_keeps_fb A hc hnfb huniq hfiOfb hm
    exact find_eq_of_unique _ _ fb hfbmem (by simp [hnfb])
      (fun e he hd => huniq2 e he (of_decide_eq_true hd))
  · intro hmem
    simp only [deletionWarnings, List.mem_filter, decide_eq_true_eq] at hmem
    have hx : A.name da ∈ unusedDeletions A b := hmem.2
    rw [hnda] at hx
    simp only [unusedDeletions, Finset.mem_sdiff] at hx
    exact hx.2 hused

/-- C6 witness: the scenario instantiated on `c6wit`: the effective
member "x" of fieldset 3 is the local field 4, the deletion is used,
and the deletion item 1 gets no warning. -/
theorem C6_deletion_with_local_override_witness :
    memberByName c6wit 3 "x" = some 4 ∧ "x" ∈ usedDels c6wit 3 ∧
      1 ∉ deletionWarnings c6wit 3 := by
  refine C6_deletion_with_local_override c6wit ?_ 2 3 "x" 0 4 1
    (by decide) (by decide) (by decide) (by decide) (by decide) (by decide)
    (by decide) (by decide) (by decide) (by decide) (by decide) (by decide)
    (by decide) (by decide) (by decide)
  intro i c hc
  by_cases hi : i = 3
  · subst hi
    simp only [c6wit] at hc
    simp at hc
    omega
  · simp only [c6wit] at hc
    simp [hi] at hc

/-! ### Claim C1: closure properties of the realization fixed point -/

theorem p5pass_rfs_mono {m : P5Model} {s : P5State} : s.rfs ⊆ (p5pass m s).rfs := by
  intro x hx
  simp only [p5pass, Finset.mem_union]
  exact Or.inl (Or.inl hx)

theorem p5pass_tfs_mono {m : P5Model} {s : P5State} : s.tfs ⊆ (p5pass m s).tfs := by
  intro x hx
  simp only [p5pass, Finset.mem_union]
  exact Or.inl hx

theorem p5fix_members_fields {m : P5Model} {sF : P5State} (hfix : p5pass m sF = sF) :
    ∀ fs ∈ sF.rfs, ∀ f ∈ m.containedFields fs, f ∈ sF.rf := by
  intro fs hfs f hf
  have h1 : (p5pass m sF).rf = sF.rf := by rw [hfix]
  rw [← h1]
  simp only [p5pass, Finset.mem_union, Finset.mem_biUnion]
  exact Or.inr ⟨fs, hfs, by simp [hf]⟩

theorem p5fix_members_fieldsets {m : P5Model} {sF : P5State} (hfix : p5pass m sF = sF) :
    ∀ fs ∈ sF.rfs, ∀ fs2 ∈ m.containedFieldsets fs, fs2 ∈ sF.rfs := by
  intro fs hfs fs2 hfs2
  have h1 : (p5pass m sF).rfs = sF.rfs := by rw [hfix]
  rw [← h1]
  simp only [p5pass, Finset.mem_union, Finset.mem_biUnion]
  exact Or.inl (Or.inr ⟨fs, hfs, by simp [hfs2]⟩)

theorem p5fix_refs {m : P5Model} {sF : P5State} (hfix : p5pass m sF = sF) :
    ∀ fs ∈ sF.rfs, ∀ f ∈ m.containedFields fs, ∀ t l, m.refsOf f = some (t :: l) →
      m.fi t ∈ sF.rfs ∧ m.fi t ∈ sF.tfs := by
  intro fs hfs f hf t l hr
  have htg : m.fi t ∈ refTargets m fs := by
    simp only [refTargets, List.mem_toFinset, List.mem_filterMap]
    exact ⟨f, hf, by rw [hr]⟩
  have htgts : m.fi t ∈
      (sF.rfs ∪ sF.rfs.biUnion (fun fs => (m.containedFieldsets fs).toFinset)).biUnion
        (refTargets m) :=
    Finset.mem_biUnion.mpr ⟨fs, Finset.mem_union_left _ hfs, htg⟩
  constructor
  · have h1 : (p5pass m sF).rfs = sF.rfs := by rw [hfix]
    rw [← h1]
    simp only [p5pass, Finset.mem_union]
    right
    simpa using htgts
  · have h1 : (p5pass m sF).tfs = sF.tfs := by rw [hfix]
    rw [← h1]
    simp only [p5pass, Finset.mem_union]
    right
    simpa using htgts

/-- C1 (amended): after phase 5 completes without an exception and
without error 05011, the realization worklist is closed: the realized
schemas contain the main schemas and are closed under required uses;
every required outermost fieldset item of a realized schema has an
outermost final implementor that is worklist-realized and toplevel;
every contained field / fieldset of a worklist-realized fieldset is
worklist-realized; the reference target of every field contained in a
worklist-realized fieldset has its final implementor worklist-realized
and toplevel; no such field carries an argument-less `references`
property (that would have raised `IndexError`); and the final realized
set contains the worklist and is closed under specifications.  (The
claim as stated fails for fieldsets realized only through the
specification propagation: see the counterexample.) -/
theorem C1_realization_closure (m : P5Model) (out : P5Out)
    (hout : phase5 m = some out) (herr : out.hasErr = false) :
    (∀ sc ∈ m.mainSrcs, sc ∈ out.rSchemas) ∧
    (∀ sc ∈ out.rSchemas, ∀ u ∈ m.uses sc, u.2 = true → u.1 ∈ out.rSchemas) ∧
    (∀ sc ∈ out.rSchemas, ∀ it ∈ m.fsItems sc, it.2 = true →
      m.outermost (m.fi it.1) = true ∧ m.fi it.1 ∈ out.wlFieldsets ∧
        m.fi it.1 ∈ out.toplevel) ∧
    (∀ fs ∈ out.wlFieldsets, ∀ f ∈ m.containedFields fs, f ∈ out.wlFields) ∧
    (∀ fs ∈ out.wlFieldsets, ∀ fs2 ∈ m.containedFieldsets fs, fs2 ∈ out.wlFieldsets) ∧
    (∀ fs ∈ out.wlFieldsets, ∀ f ∈ m.containedFields fs, ∀ t l,
      m.refsOf f = some (t :: l) → m.fi t ∈ out.wlFieldsets ∧ m.fi t ∈ out.toplevel) ∧
    (∀ fs ∈ out.wlFieldsets, ∀ f ∈ m.containedFields fs, m.refsOf f ≠ some []) ∧
    (∀ i ∈ out.wlFieldsets, i ∈ out.realized) ∧
    (∀ i ∈ out.wlFields, i ∈ out.realized) ∧
    (∀ i ∈ out.realized, ∀ sp ∈ m.specs i, sp ∈ out.realized) := by
  unfold phase5 at hout
  obtain ⟨rs, hrs, hout⟩ := Option.bind_eq_some.mp hout
  obtain ⟨sF, hsf, hout⟩ := Option.bind_eq_some.mp hout
  by_cases hbad : hasBadRef m sF.rfs = true
  · rw [if_pos hbad] at hout; cases hout
  rw [if_neg hbad] at hout
  obtain ⟨ra, hra, hout⟩ := Option.map_eq_some'.mp hout
  subst hout
  have hfix := fixLoop_isFix hsf
  have hrsfix := fixLoop_isFix hrs
  have hrafix := fixLoop_isFix hra
  have hseed : seedSet m rs ⊆ sF.rfs ∧ seedSet m rs ⊆ sF.tfs := by
    refine fixLoop_inv (fun s : P5State => seedSet m rs ⊆ s.rfs ∧ seedSet m rs ⊆ s.tfs)
      ?_ hsf ⟨Finset.Subset.refl _, Finset.Subset.refl _⟩
    intro s hs
    exact ⟨hs.1.trans p5pass_rfs_mono, hs.2.trans p5pass_tfs_mono⟩
  refine ⟨?_, ?_, ?_, p5fix_members_fields hfix, p5fix_members_fieldsets hfix,
    p5fix_refs hfix, ?_, ?_, ?_, ?_⟩
  · -- main schemas are realized
    intro sc hsc
    refine fixLoop_inv (fun s : Finset Nat => sc ∈ s) ?_ hrs (by simp [hsc])
    intro s hsin
    simp only [schemaStep, Finset.mem_union]
    exact Or.inl hsin
  · -- closed under required uses
    intro sc hsc u hu hreq
    have h1 : schemaStep m rs = rs := hrsfix
    rw [← h1]
    simp only [schemaStep, Finset.mem_union, Finset.mem_biUnion]
    refine Or.inr ⟨sc, hsc, ?_⟩
    simp only [List.mem_toFinset, List.mem_map, List.mem_filter]
    exact ⟨u, ⟨hu, by simp [hreq]⟩, rfl⟩
  · -- required items of realized schemas
    intro sc hsc it hit hreq
    have hok : m.outermost (m.fi it.1) = true := by
      have hne := herr
      simp only [seedErr, decide_eq_false_iff_not, not_exists] at hne
      by_contra hcon
      refine hne sc ⟨hsc, ?_⟩
      simp only [List.any_eq_true]
      refine ⟨it, hit, ?_⟩
      simp [hreq, Bool.eq_false_iff.mpr hcon]
    have hiseed : m.fi it.1 ∈ seedSet m rs := by
      simp only [seedSet, Finset.mem_biUnion]
      refine ⟨sc, hsc, ?_⟩
      simp only [List.mem_toFinset, List.mem_map, List.mem_filter]
      exact ⟨it, ⟨hit, by simp [hreq, hok]⟩, rfl⟩
    exact ⟨hok, hseed.1 hiseed, hseed.2 hiseed⟩
  · -- no universal references among realized fields
    intro fs hfs f hf hcon
    simp only [hasBadRef, decide_eq_true_eq, not_exists] at hbad
    refine hbad fs ⟨hfs, ?_⟩
    simp only [List.any_eq_true]
    exact ⟨f, hf, by simp [hcon]⟩
  · -- worklist fieldsets are realized
    intro i hi
    refine fixLoop_inv (fun s : Finset Nat => i ∈ s) ?_ hra
      (Finset.mem_union_left _ hi)
    intro s hsin
    simp only [specClosureStep, Finset.mem_union]
    exact Or.inl hsin
  · -- worklist fields are realized
    intro i hi
    refine fixLoop_inv (fun s : Finset Nat => i ∈ s) ?_ hra
      (Finset.mem_union_right _ hi)
    intro s hsin
    simp only [specClosureStep, Finset.mem_union]
    exact Or.inl hsin
  · -- realized set closed under specifications
    intro i hi sp hsp
    have h1 : specClosureStep m ra = ra := hrafix
    rw [← h1]
    simp only [specClosureStep, Finset.mem_union, Finset.mem_biUnion]
    exact Or.inr ⟨i, hi, by simp [hsp]⟩

/-- C1 counterexample: in `c1cex`, phase 5 succeeds with no error, the
abstract fieldset 0 is realized (through specification propagation from
its implementor 1), its member field 2 is a contained field of it, yet
field 2 is NOT realized — so "every member of a realized fieldset is
realized" is false as stated. -/
theorem C1_counterexample :
    (phase5 c1cex).isSome = true ∧ c1out.hasErr = false ∧
    0 ∈ c1out.realized ∧ 2 ∈ c1cex.containedFields 0 ∧ 2 ∉ c1out.realized := by
  decide

/-- C1 witness: the closure theorem applied to `c1cex`: field 3,
contained in the worklist-realized fieldset 1, is worklist-realized. -/
theorem C1_realization_closure_witness :
    phase5 c1cex = some c1out ∧ c1out.hasErr = false ∧ 3 ∈ c1out.wlFields := by
  refine ⟨rfl, rfl, ?_⟩
  have h := C1_realization_closure c1cex c1out rfl rfl
  exact h.2.2.2.1 1 (by decide) 3 (by decide)

/-! ### Claim C3: diffing an instance against itself is empty -/

theorem flist_empty : flist ∅ = [] := by
  simp [flist]

theorem diff_fields_one_self (t : TableM) :
    diff_fields_one t t = .ok ⟨[], [], [], [], [], [], false⟩ := by
  unfold diff_fields_one
  rw [if_neg (by simp)]
  simp [Finset.sdiff_self, flist_empty]

theorem mapM_ok_of_ok {α β : Type} (f : α → Except String β) (P : β → Prop) :
    ∀ (l : List α), (∀ x ∈ l, ∃ y, f x = .ok y ∧ P y) →
      ∃ out, l.mapM f = .ok out ∧ ∀ y ∈ out, P y := by
  intro l
  induction l with
  | nil => intro _; exact ⟨[], rfl, by simp⟩
  | cons x t ih =>
    intro h
    obtain ⟨y, hy, hPy⟩ := h x (by simp)
    obtain ⟨out, hout, hPout⟩ := ih (fun z hz => h z (by simp [hz]))
    refine ⟨y :: out, ?_, ?_⟩
    · rw [List.mapM_cons, hy, hout]; rfl
    · intro z hz
      rcases List.mem_cons.mp hz with rfl | hz2
      · exact hPy
      · exact hPout z hz2

/-- C3: diffing a compiled instance against itself is empty on all
three axes: `diff_schemas` and `diff_tables` return empty
to-create/to-drop sets, and every per-table result of `diff_fields` has
empty drop/create/rename/retype/not-null lists with `has_change`
false. -/
theorem C3_diff_self_empty (A : InstanceM) :
    (diff_schemas A A).toDrop = ∅ ∧ (diff_schemas A A).toCreate = ∅ ∧
    (diff_tables A A).toDrop = ∅ ∧ (diff_tables A A).toCreate = ∅ ∧
    ∃ l, diff_fields (diff_tables A A) = .ok l ∧
      ∀ d ∈ l, d.toDrop = [] ∧ d.toCreate = [] ∧ d.toRename = [] ∧ d.toRetype = [] ∧
        d.toDropNotnull = [] ∧ d.toCreateNotnull = [] ∧ d.hasChange = false := by
  refine ⟨Finset.sdiff_self _, Finset.sdiff_self _, Finset.sdiff_self _,
    Finset.sdiff_self _, ?_⟩
  obtain ⟨l, hl, hP⟩ := mapM_ok_of_ok
    (fun g => diff_fields_one ((dget g (diff_tables A A).old_tables).getD junkTable)
      ((dget g (diff_tables A A).new_tables).getD junkTable))
    (fun d => d.toDrop = [] ∧ d.toCreate = [] ∧ d.toRename = [] ∧ d.toRetype = [] ∧
      d.toDropNotnull = [] ∧ d.toCreateNotnull = [] ∧ d.hasChange = false)
    (flist (diff_tables A A).common)
    (fun g _ => by
      have heq : (diff_tables A A).new_tables = (diff_tables A A).old_tables := rfl
      rw [heq]
      exact ⟨_, diff_fields_one_self _, rfl, rfl, rfl, rfl, rfl, rfl, rfl⟩)
  exact ⟨l, hl, hP⟩

/-! ### Claim C4: physical-name mangling shape and lengths -/

theorem b64encode_length : ∀ l : List Nat, (b64encode l).length = 4 * ((l.length + 2) / 3)
  | [] => by simp [b64encode]
  | [a] => by simp [b64encode]
  | [a, b] => by simp [b64encode]
  | a :: b :: c :: rest => by
    simp only [b64encode, List.length_cons]
    rw [b64encode_length rest]
    omega

theorem hashname_cases (L : Nat) (digest : List Char → List Nat)
    (hL : 8 ≤ L) (hdig : ∀ s, (digest s).length = 32) (basename : List Char) :
    (basename.length ≤ L → hashname L digest basename = basename) ∧
    (basename.length > L →
      hashname L digest basename =
        basename.take (L - 8) ++ ['_', '_'] ++ (b64encode (digest basename)).take 6 ∧
      (hashname L digest basename).length = L) ∧
    (hashname L digest basename).length ≤ L := by
  by_cases hlen : basename.length > L
  · have hshape : hashname L digest basename =
        basename.take (L - 8) ++ ['_', '_'] ++ (b64encode (digest basename)).take 6 := by
      rw [hashname, if_pos hlen]
    have hlen6 : ((b64encode (digest basename)).take 6).length = 6 := by
      rw [List.length_take, b64encode_length, hdig]
      omega
    have hlenL : (hashname L digest basename).length = L := by
      rw [hshape]
      simp only [List.length_append, List.length_take, hlen6, List.length_cons,
        List.length_nil]
      omega
    exact ⟨fun h => absurd h (by omega), fun _ => ⟨hshape, hlenL⟩, by omega⟩
  · have heq : hashname L digest basename = basename := by
      rw [hashname, if_neg hlen]
    exact ⟨fun _ => heq, fun h => absurd h hlen, by rw [heq]; omega⟩

/-- C4: for every path, the physical name is the separator-joined form
returned verbatim whenever its length is at most the vendor's maximum
identifier length `L` (so in particular at exactly `L` no hashing
occurs), and for any longer joined form it is the first `L - 8`
characters followed by `"__"` followed by the first 6 characters of the
base64 encoding (with `_` and `$` as the two non-alphanumeric digits)
of the digest of the joined form — so the truncated result has length
exactly `L` and no physical name ever exceeds `L`.  The hypotheses
record that every vendor limit in the code base is at least 8
(31/63/63) and that the digest (SHA-256) is 32 bytes. -/
theorem C4_makename_shape (L : Nat) (digest : List Char → List Nat) (sep : Char)
    (hL : 8 ≤ L) (hdig : ∀ s, (digest s).length = 32) (path : List (List Char)) :
    ((List.intercalate [sep] path).length ≤ L →
      makename L digest sep path = List.intercalate [sep] path) ∧
    ((List.intercalate [sep] path).length > L →
      makename L digest sep path =
        (List.intercalate [sep] path).take (L - 8) ++ ['_', '_'] ++
          (b64encode (digest (List.intercalate [sep] path))).take 6 ∧
      (makename L digest sep path).length = L) ∧
    (makename L digest sep path).length ≤ L :=
  hashname_cases L digest hL hdig (List.intercalate [sep] path)

/-- C4 witness, on the PostgreSQL limit `L = 63`: the short path
`["a", "b"]` joins to `"a$b"` and is returned verbatim, and a single
100-character part is truncated to exactly 63 characters. -/
theorem C4_makename_shape_witness :
    makename 63 dzero '$' [['a'], ['b']] = ['a', '$', 'b'] ∧
    (makename 63 dzero '$' [List.replicate 100 'a']).length = 63 := by
  constructor
  · exact (C4_makename_shape 63 dzero '$' (by omega) (fun s => by simp [dzero])
      [['a'], ['b']]).1 (by decide)
  · exact ((C4_makename_shape 63 dzero '$' (by omega) (fun s => by simp [dzero])
      [List.replicate 100 'a']).2.1 (by decide)).2

/-- C3 witness: the self-diff theorem applied to a one-table
instance. -/
theorem C3_diff_self_empty_witness :
    (diff_schemas i3wit i3wit).toCreate = ∅ ∧ (diff_tables i3wit i3wit).toDrop = ∅ :=
  ⟨(C3_diff_self_empty i3wit).2.1, (C3_diff_self_empty i3wit).2.2.1⟩

/-! ### Claim C5: order of the upgrade plan -/

/-- C5 (amended): `YASDLInstance.upgrade` executes its steps in exactly
the claimed order — before-all; create schemas; create tables; raw
data; drop field NOT NULL constraints, table constraints, indexes,
triggers, views; create fields, change field types, drop fields; create
table constraints, field NOT NULL constraints, indexes, triggers,
views, comments, data; drop tables; drop schemas — but the plan ends
with dropping schemas: there is no final After-all step (no
`upgrade_after_all` method exists). -/
theorem C5_upgrade_order : upgradePlan = specUpgradeOrderAmended := rfl

/-- C5 counterexample: the last step of the upgrade plan is dropping
obsolete schemas, and no After-all step occurs anywhere in it, so "the
procedure finishes with an After-all step as the final step of the
plan" is false. -/
theorem C5_counterexample :
    upgradePlan.getLast? = some UpStep.upgradeDropSchemas ∧
    UpStep.upgradeAfterAll ∉ upgradePlan := by decide

/-! ### Claim C10: drop without a "force" option -/

theorem dget_dinsert_ne {κ α : Type} [DecidableEq κ] {k k2 : κ} (v : α) (h : k2 ≠ k) :
    ∀ l, dget k2 (dinsert k v l) = dget k2 l := by
  intro l
  induction l with
  | nil =>
    show dget k2 [(k, v)] = none
    simp only [dget]
    rw [if_neg (fun hc => h hc.symm)]
  | cons p t ih =>
    obtain ⟨k3, v3⟩ := p
    show dget k2 (if k3 = k then (k, v) :: t else (k3, v3) :: dinsert k v t) = _
    split
    · next heq =>
      subst heq
      show (if k3 = k2 then some v else dget k2 t) = (if k3 = k2 then some v3 else dget k2 t)
      rw [if_neg (fun hc => h hc.symm), if_neg (fun hc => h hc.symm)]
    · show (if k3 = k2 then some v3 else dget k2 (dinsert k v t)) = _
      by_cases hk3 : k3 = k2
      · rw [if_pos hk3]
        show _ = (if k3 = k2 then some v3 else dget k2 t)
        rw [if_pos hk3]
      · rw [if_neg hk3, ih]
        show _ = (if k3 = k2 then some v3 else dget k2 t)
        rw [if_neg hk3]

theorem dget_dinsert_self {κ α : Type} [DecidableEq κ] (k : κ) (v : α) :
    ∀ l, dget k (dinsert k v l) = some v := by
  intro l
  induction l with
  | nil =>
    show dget k [(k, v)] = some v
    simp [dget]
  | cons p t ih =>
    obtain ⟨k3, v3⟩ := p
    show dget k (if k3 = k then (k, v) :: t else (k3, v3) :: dinsert k v t) = _
    split
    · simp [dget]
    · next hne =>
      show (if k3 = k then some v3 else dget k (dinsert k v t)) = _
      rw [if_neg hne, ih]

/-- C10: `YASDLInstance.drop` raises `KeyError` before executing any
drop step whenever the options dict contains no "force" key — including
the default call with `options=None` — because only the
`ignore_exceptions` option is given a default value before
`options["force"]` is read. -/
theorem C10_drop_missing_force (l : List (String × Bool)) (h : dget "force" l = none) :
    dropPlan (some l) = Except.error "KeyError: force" ∧
    dropPlan none = Except.error "KeyError: force" := by
  constructor
  · have hrw : dget "force"
        (dinsert "ignore_exceptions" ((dget "ignore_exceptions" l).getD false) l) = none := by
      rw [dget_dinsert_ne _ (by decide) l]
      exact h
    unfold dropPlan
    simp only [Option.getD_some]
    rw [hrw]
  · rfl

/-- C10 witness: the default options (empty dict / None) indeed hit the
KeyError. -/
theorem C10_drop_missing_force_witness :
    dget "force" ([] : List (String × Bool)) = none ∧
    dropPlan (some []) = Except.error "KeyError: force" :=
  ⟨rfl, (C10_drop_missing_force [] rfl).1⟩

/-! ### Claim C7: physical-name cache and accessors -/

theorem dget_isSome_dinsert {κ α : Type} [DecidableEq κ] (k k2 : κ) (v : α)
    (l : List (κ × α)) (h : (dget k2 l).isSome = true) :
    (dget k2 (dinsert k v l)).isSome = true := by
  by_cases hk : k2 = k
  · subst hk
    rw [dget_dinsert_self]
    rfl
  · rw [dget_dinsert_ne v hk]
    exact h

theorem fieldfold_isSome (I : Inst7) (k : PKey) (t : Nat) (d : List (PKey × String))
    (h : (dget k d).isSome = true) :
    (dget k ((I.fieldPaths t).foldl (fun d3 fp =>
      if fp.2 then dinsert (PKey.fieldK t fp.1) (I.nameOf (PKey.fieldK t fp.1)) d3 else d3)
      d)).isSome = true := by
  refine foldl_preserve_mem (P := fun d => (dget k d).isSome = true) _ ?_ _ h
  intro d3 fp _ h3
  split
  · exact dget_isSome_dinsert _ _ _ _ h3
  · exact h3

theorem tablefold_isSome (I : Inst7) (k : PKey) (ts : List Nat) (d : List (PKey × String))
    (h : (dget k d).isSome = true) :
    (dget k (ts.foldl (fun d t =>
      (I.fieldPaths t).foldl (fun d3 fp =>
        if fp.2 then dinsert (PKey.fieldK t fp.1) (I.nameOf (PKey.fieldK t fp.1)) d3 else d3)
        (dinsert (PKey.tableK t) (I.nameOf (PKey.tableK t)) d)) d)).isSome = true := by
  refine foldl_preserve_mem (P := fun d => (dget k d).isSome = true) _ ?_ _ h
  intro d2 t2 _ h2
  exact fieldfold_isSome I k t2 _ (dget_isSome_dinsert _ _ _ _ h2)

/-- C7 (amended): `_cache_pnames` pre-computes schema physical names
for EVERY schema of the parse result — not only for schemas with
realized toplevel fieldsets — so `get_schema_pname` returns the cached
name for every schema of the set (it raises plain `KeyError`, not the
not-realized error, and only for objects outside the parse result);
`get_table_pname` returns the cached name for realized toplevel
fieldsets and raises `NotRealizedError` for any other table. -/
theorem C7_pname_accessors (I : Inst7) :
    (∀ s ∈ I.schemas, ∃ v, get_schema_pname I s = Except.ok v) ∧
    (∀ t ∈ I.tables, ∃ v, get_table_pname I t = Except.ok v) ∧
    (∀ t, t ∉ I.tables → get_table_pname I t = Except.error PErr.notRealized) := by
  refine ⟨?_, ?_, ?_⟩
  · intro s hs
    have hsome : (dget (PKey.schemaK s) (cachePnames I)).isSome = true := by
      unfold cachePnames
      dsimp only
      refine tablefold_isSome I _ _ _ ?_
      refine foldl_establish (P := fun d => (dget (PKey.schemaK s) d).isSome = true)
        hs ?_ ?_ _
      · intro acc
        rw [dget_dinsert_self]
        rfl
      · intro acc b _ hP
        exact dget_isSome_dinsert _ _ _ _ hP
    obtain ⟨v, hv⟩ := Option.isSome_iff_exists.mp hsome
    exact ⟨v, by unfold get_schema_pname; rw [hv]⟩
  · intro t ht
    have hsome : (dget (PKey.tableK t) (cachePnames I)).isSome = true := by
      unfold cachePnames
      dsimp only
      refine foldl_establish (P := fun d => (dget (PKey.tableK t) d).isSome = true)
        ht ?_ ?_ _
      · intro acc
        refine fieldfold_isSome I _ _ _ ?_
        rw [dget_dinsert_self]
        rfl
      · intro acc t2 _ hP
        exact fieldfold_isSome I _ _ _ (dget_isSome_dinsert _ _ _ _ hP)
    obtain ⟨v, hv⟩ := Option.isSome_iff_exists.mp hsome
    exact ⟨v, by unfold get_table_pname; rw [hv]⟩
  · intro t ht
    have hnone : dget (PKey.tableK t) (cachePnames I) = none := by
      unfold cachePnames
      dsimp only
      refine foldl_preserve_mem (P := fun d => dget (PKey.tableK t) d = none) _ ?_ _ ?_
      · intro d2 t2 ht2 h2
        have hne : t ≠ t2 := fun hcon => ht (hcon ▸ ht2)
        refine foldl_preserve_mem (P := fun d => dget (PKey.tableK t) d = none) _ ?_ _ ?_
        · intro d3 fp _ h3
          split
          · rw [dget_dinsert_ne _ (fun hcon => PKey.noConfusion hcon)]
            exact h3
          · exact h3
        · show dget (PKey.tableK t)
              (dinsert (PKey.tableK t2) (I.nameOf (PKey.tableK t2)) d2) = none
          rw [dget_dinsert_ne _ (fun hcon => hne (PKey.tableK.inj hcon))]
          exact h2
      · refine foldl_preserve_mem (P := fun d => dget (PKey.tableK t) d = none) _ ?_ _ rfl
        intro d2 s _ h2
        rw [dget_dinsert_ne _ (fun hcon => PKey.noConfusion hcon)]
        exact h2
    unfold get_table_pname
    rw [hnone]

/-- C7 counterexample: schema 0 of `i7cex` has no realized toplevel
fieldsets, yet `get_schema_pname` returns its cached name instead of
raising the not-realized error. -/
theorem C7_counterexample : get_schema_pname i7cex 0 = Except.ok "s0" := by rfl

/-- C7 witness: the amended accessor theorem applied at the unrealized
table 11 of `i7cex`. -/
theorem C7_pname_accessors_witness :
    get_table_pname i7cex 11 = Except.error PErr.notRealized :=
  (C7_pname_accessors i7cex).2.2 11 (by decide)

/-! ### Claim C8: GNU diagnostic format -/

/-- C8 (amended): every compiler diagnostic formatted in the GNU style
has the shape "FILE":LINE:{E|W|N}CODE:PATH:MESSAGE — five
colon-separated fields with NO column field between the line number and
the severity-tagged code. -/
theorem C8_gnu_format_shape (msg : CMessage) : gnu_format msg = gnuShapeNoCol msg := rfl

/-- C8 counterexample: a concrete error message formats without its
column number (7), refuting the claimed
"FILE":LINE:COL:{E|W|N}CODE:PATH:MESSAGE shape. -/
theorem C8_counterexample :
    gnu_format c8msg = "\"f.yasdl\":3:E01011:a.b:bad" ∧
    gnu_format c8msg ≠ gnuShapeWithCol c8msg := by decide


end Venus
